import Mathlib

/-!
Shallow embedding of the function-level change attribution engine of the
diffanalyze repository (src/diffanalyze.py and src/diffanalyze2.py),
together with theorems settling the frozen claims about it.

Conventions of the embedding:
* Line numbers are `Int`, since pygit2 reports `-1` for an absent side of a
  diff line.
* Python dictionaries are modelled as insertion-ordered association lists
  (a new key is appended at the end, exactly as an insertion-ordered dict).
* Python sets of commit hashes are modelled as duplicate-free lists.
* External collaborators (pygit2 object store, the ctags process) enter as
  explicit inputs: the parsed ctags records of a file, the stderr of the
  ctags process, and the per-file diff line records are parameters of the
  embedded functions, which mirror what the source does with them.
-/

namespace Diffanalyze

/-- Association-list lookup (first match), modelling Python dict lookup. -/
def assocLookup {β : Type} : List (String × β) → String → Option β
  | [], _ => none
  | (k, v) :: rest, key => if k = key then some v else assocLookup rest key

/-! ## Data model shared by both entry points -/

/-- One parsed record of the ctags JSON output.  `line` is the start line,
`end_` is the optional end line (the `end` field of ctags), `kind` is the
optional symbol kind (`"function"` or `"prototype"`). The print-only
`pattern` field of the source is omitted: no embedded computation reads it. -/
structure CtagsEntry where
  name : String
  line : Int
  end_ : Option Int
  kind : Option String
  deriving DecidableEq

/-- One changed line of one hunk as pygit2 reports it: the line content, the
post-image line number (`-1` when the line only exists pre-image), the
pre-image line number (`-1` when the line only exists post-image), the
number of lines of its content and the origin marker. -/
structure DiffLine where
  content : String
  new_lineno : Int
  old_lineno : Int
  num_lines : Int
  origin : Char
  deriving DecidableEq

/-- Python's `not s.strip()`: true iff the string has no non-whitespace
character. -/
def isBlank (s : String) : Bool :=
  s.toList.all Char.isWhitespace

/-! ## diffanalyze.py: FnAttributes, get_fn_names (lines 113-178) -/

/-- `FnAttributes` of diffanalyze.py: name, start line and end line of a
function symbol (the trimmed prototype string, used only for printing, is
omitted). -/
structure FnAttributes where
  fn_name : String
  start_line : Int
  end_line : Int
  deriving DecidableEq

/-- `FileDifferences.current_fn_map` / `prev_fn_map`: function name to the
list of symbol variants carrying that name. -/
abbrev FnMap := List (String × List FnAttributes)

/-- Insert a variant into a function map: append to the variants of an
existing key, otherwise append a new singleton entry at the end (Python
dict insertion order). -/
def fnMapInsert (m : FnMap) (k : String) (v : FnAttributes) : FnMap :=
  match m with
  | [] => [(k, [v])]
  | (k2, vs) :: rest =>
    if k2 = k then (k2, vs ++ [v]) :: rest else (k2, vs) :: fnMapInsert rest k v

/-- One step of the dictionary-building loop of
`FileDifferences.get_fn_names` (diffanalyze.py lines 167-176): keep only
entries of kind `function`, substituting the start line for a missing end
line. -/
def fn_names_step (m : FnMap) (e : CtagsEntry) : FnMap :=
  if e.kind = some "function" then
    fnMapInsert m e.name ⟨e.name, e.line, e.end_.getD e.line⟩
  else m

/-- The dictionary-building loop of `FileDifferences.get_fn_names`
(diffanalyze.py lines 163-178). -/
def get_fn_names_fold (entries : List CtagsEntry) : FnMap :=
  entries.foldl fn_names_step []

/-- `FileDifferences.get_fn_names` (diffanalyze.py lines 152-178).  The
ctags invocation is a collaborator; its stderr output `err` and its parsed
JSON records `entries` are the inputs.  A non-empty stderr makes the
function return the empty map (lines 159-161): the error is non-fatal. -/
def get_fn_names (err : String) (entries : List CtagsEntry) : FnMap :=
  if err ≠ "" then [] else get_fn_names_fold entries

/-! ## diffanalyze.py: match_lines_to_fn (lines 180-207) -/

/-- `ChangedLinesManager` of diffanalyze.py restricted to its data (the
patch message string is print-only). -/
structure ChangedLines where
  added_lines : List Int
  removed_lines : List Int
  deriving DecidableEq

/-- `FileDifferences.fn_to_changed_lines`: function name to its accumulated
changed lines. -/
abbrev LinesMap := List (String × ChangedLines)

/-- The double loop of `match_lines_to_fn` collecting, for the variants of
one function name, every changed line contained in a variant's range
(diffanalyze.py lines 187-197): for each variant, every line `n` with
`start_line ≤ n ≤ end_line`. -/
def lines_in_ranges (attrs : List FnAttributes) (lines : List Int) : List Int :=
  attrs.flatMap fun a =>
    lines.filter fun n => decide (a.start_line ≤ n) && decide (n ≤ a.end_line)

/-- New-record insertion into `fn_to_changed_lines`: a fresh dict key is
appended at the end. -/
def insertRecord (m : LinesMap) (k : String) (a r : List Int) : LinesMap :=
  m ++ [(k, ⟨a, r⟩)]

/-- In-place `extend` of an existing record's added and removed lists
(diffanalyze.py lines 200-201). -/
def extendRecord (m : LinesMap) (k : String) (a r : List Int) : LinesMap :=
  match m with
  | [] => []
  | (k2, cl) :: rest =>
    if k2 = k then (k2, ⟨cl.added_lines ++ a, cl.removed_lines ++ r⟩) :: rest
    else (k2, cl) :: extendRecord rest k a r

/-- The iteration domain `set(current.keys()).union(set(prev.keys()))` of
`match_lines_to_fn` (line 183).  Python set iteration order is
unspecified; the loop body is order-independent (each name touches only its
own key), so one fixed duplicate-free order is used. -/
def union_fn_names (cur prev : FnMap) : List String :=
  (cur.map Prod.fst ++ prev.map Prod.fst).dedup

/-- The body of the per-name loop of `match_lines_to_fn`
(diffanalyze.py lines 185-204), acting on the state
(`fn_to_changed_lines`, success flag). -/
def process_fn_name (cur prev : FnMap) (new_lines old_lines : List Int)
    (st : LinesMap × Bool) (fn_name : String) : LinesMap × Bool :=
  let added := lines_in_ranges ((assocLookup cur fn_name).getD []) new_lines
  let removed := lines_in_ranges ((assocLookup prev fn_name).getD []) old_lines
  match assocLookup st.1 fn_name with
  | some _ => (extendRecord st.1 fn_name added removed, true)
  | none =>
    if added.isEmpty && removed.isEmpty then st
    else (insertRecord st.1 fn_name added removed, true)

/-- `FileDifferences.match_lines_to_fn` (diffanalyze.py lines 180-207).
The object state `fn_to_changed_lines` is passed in as `existing` and the
updated map is returned next to the success flag the source returns. -/
def match_lines_to_fn (cur prev : FnMap) (existing : LinesMap)
    (new_lines old_lines : List Int) : LinesMap × Bool :=
  (union_fn_names cur prev).foldl
    (process_fn_name cur prev new_lines old_lines) (existing, false)

/-! ## diffanalyze.py: compute_diffs (lines 355-418) -/

/-- One step of the hunk-line collection loop of
`RepoManager.compute_diffs` (diffanalyze.py lines 397-405): a
whitespace-only line is skipped, a line with a post-image number goes to
the new list, otherwise its pre-image number goes to the old list. -/
def collect_line_step (acc : List Int × List Int) (l : DiffLine) : List Int × List Int :=
  if isBlank l.content then acc
  else if l.new_lineno > -1 then (acc.1 ++ [l.new_lineno], acc.2)
  else (acc.1, acc.2 ++ [l.old_lineno])

/-- The hunk-line collection loop of `RepoManager.compute_diffs`
(diffanalyze.py lines 393-405). -/
def collect_hunk_lines (lines : List DiffLine) : List Int × List Int :=
  lines.foldl collect_line_step ([], [])

/-- `FileDifferences.get_extension` (diffanalyze.py lines 144-150): the
suffix from the last dot, or `"none"` when the name has no dot. -/
def last_dot_suffix : List Char → Option (List Char)
  | [] => none
  | c :: cs =>
    match last_dot_suffix cs with
    | some s => some s
    | none => if c = '.' then some (c :: cs) else none

/-- `FileDifferences.get_extension`. -/
def get_extension (filename : String) : String :=
  match last_dot_suffix filename.toList with
  | some s => String.mk s
  | none => "none"

/-- `RepoManager.allowed_extensions` (diffanalyze.py line 290). -/
def allowed_extensions : List String := [".c"]

/-- Add an element to a modelled Python set (duplicate-free list). -/
def setInsert (s : List String) (x : String) : List String :=
  if x ∈ s then s else s ++ [x]

/-- `self.other_changed[extension].add(commit)` with the preceding
`setdefault`-style initialisation (diffanalyze.py lines 368-371). -/
def otherAdd (oc : List (String × List String)) (ext c : String) :
    List (String × List String) :=
  match oc with
  | [] => [(ext, [c])]
  | (e, s) :: rest =>
    if e = ext then (e, setInsert s c) :: rest else (e, s) :: otherAdd rest ext c

/-- One changed file handed to `compute_diffs`: its new path and its hunks,
each hunk a list of diff lines. -/
structure Patch where
  filename : String
  hunks : List (List DiffLine)

/-- The state `compute_diffs` threads through its patch loop:
`self.other_changed`, the accumulated `DiffSummary` (filename paired with
the file's `fn_to_changed_lines`), and the two local flags. -/
structure CDState where
  other_changed : List (String × List String)
  file_diffs : List (String × LinesMap)
  has_c_files : Bool
  has_updated_fn : Bool
  deriving DecidableEq

/-- The path-filter check of diffanalyze.py lines 363-364: a file passes
when no filter is set or the filter matches its name; otherwise the patch
loop skips it. -/
def passes_filter (filter : Option (String → Bool)) (filename : String) : Bool :=
  match filter with
  | some f => f filename
  | none => true

/-- The per-patch body of `RepoManager.compute_diffs` (diffanalyze.py
lines 361-410).  The git checkouts and the two ctags runs are
collaborators: `fnMaps` yields, per filename, the post-image and pre-image
function maps the two `get_fn_names` calls would produce. -/
def process_patch (fnMaps : String → FnMap × FnMap) (commitHex : String)
    (filter : Option (String → Bool)) (st : CDState) (p : Patch) : CDState :=
  if !passes_filter filter p.filename then st
  else
    let ext := get_extension p.filename
    if ext ∉ allowed_extensions then
      { st with other_changed := otherAdd st.other_changed ext commitHex }
    else
      let maps := fnMaps p.filename
      let res := p.hunks.foldl
        (fun (acc : LinesMap × Bool) hunk =>
          let collected := collect_hunk_lines hunk
          let r := match_lines_to_fn maps.1 maps.2 acc.1 collected.1 collected.2
          (r.1, acc.2 || r.2))
        ([], false)
      { st with
        has_c_files := true
        file_diffs := st.file_diffs ++ [(p.filename, res.1)]
        has_updated_fn := st.has_updated_fn || res.2 }

/-- The patch loop of `compute_diffs` from the initial state. -/
def compute_diffs_loop (fnMaps : String → FnMap × FnMap) (commitHex : String)
    (filter : Option (String → Bool)) (patches : List Patch) : CDState :=
  patches.foldl (process_patch fnMaps commitHex filter) ⟨[], [], false, false⟩

/-- `RepoManager.compute_diffs` (diffanalyze.py lines 355-418): the patch
loop followed by the final `.c` bookkeeping (lines 412-416), which adds the
commit under `'.c'` only when eligible files were seen and no function was
updated. -/
def compute_diffs (fnMaps : String → FnMap × FnMap) (commitHex : String)
    (filter : Option (String → Bool)) (patches : List Patch) : CDState :=
  let st := compute_diffs_loop fnMaps commitHex filter patches
  if st.has_c_files && !st.has_updated_fn then
    { st with other_changed := otherAdd st.other_changed ".c" commitHex }
  else st

/-- `DiffSummary.updated_fn_count`: the sum over files of the number of
entries of `fn_to_changed_lines` (diffanalyze.py lines 267-269). -/
def updated_fn_count (st : CDState) : Nat :=
  (st.file_diffs.map (fun d => d.2.length)).sum

/-! ## Commits and parent selection -/

/-- A commit: its hex id and its parent commits. -/
inductive Commit where
  | mk : String → List Commit → Commit

/-- The commit's hex id. -/
def Commit.id : Commit → String
  | .mk i _ => i

/-- The commit's parents. -/
def Commit.parents : Commit → List Commit
  | .mk _ p => p

/-- The well-known empty-tree id (both source files, line 34 / line 14). -/
def GIT_EMPTY_TREE_ID : String := "4b825dc642cb6eb9a060e54bf8d69288fbee4904"

/-- The object `revparse_single(GIT_EMPTY_TREE_ID)` resolves to, modelled
as a sentinel commit with no parents. -/
def empty_tree_commit : Commit := Commit.mk GIT_EMPTY_TREE_ID []

/-- `get_parent_or_empty_commit` (diffanalyze2.py lines 209-216): the list
of all parents, or the singleton empty-tree sentinel for a root commit. -/
def get_parent_or_empty_commit (c : Commit) : List Commit :=
  match c.parents with
  | [] => [empty_tree_commit]
  | p :: ps => p :: ps

/-- The comparison ancestor `RepoManager.get_updated_fn_per_commit` picks
(diffanalyze.py lines 514-526): the first parent's hex when a parent
exists, else the empty tree. -/
def v1_comparison_parent (c : Commit) : String :=
  match c.parents with
  | [] => GIT_EMPTY_TREE_ID
  | p :: _ => p.id

/-! ## diffanalyze2.py: gather_diff_information (lines 219-249) -/

/-- The pygit2 delta status tags the source compares against. -/
inductive DeltaStatus where
  | added
  | deleted
  | modified
  | renamed
  deriving DecidableEq

/-- One pygit2 patch as `gather_diff_information` consumes it: delta
status, the two paths, and the hunks. -/
structure RawPatch where
  status : DeltaStatus
  new_path : String
  old_path : String
  hunks : List (List DiffLine)

/-- One change record of a patch summary (diffanalyze2.py line 246):
`add` is the post-image line number (`-1` for a removal), `remove` the
pre-image line number, `nr` the line count of the record, `origin` the
diff origin marker.  Note that the line content is dropped here: no
blank-line filtering happens in this entry point. -/
structure Change where
  add : Int
  remove : Int
  nr : Int
  origin : Char
  deriving DecidableEq

/-- The change record built from one diff line (diffanalyze2.py line 246). -/
def toChange (l : DiffLine) : Change :=
  ⟨l.new_lineno, l.old_lineno, l.num_lines, l.origin⟩

/-- One entry of the list `gather_diff_information` returns per patch:
`new_file` is absent for a DELETED delta, `old_file` absent for an ADDED
delta, and `changes` holds every hunk line of the patch. -/
structure PatchSummary where
  new_file : Option String
  old_file : Option String
  changes : List Change

/-- `gather_diff_information` (diffanalyze2.py lines 219-249) without the
diff computation itself (a collaborator): per patch, set the path fields
according to the delta status and explode every hunk line into a change
record. -/
def gather_diff_information (patches : List RawPatch) : List PatchSummary :=
  patches.map fun p =>
    { new_file := if p.status = DeltaStatus.deleted then none else some p.new_path
      old_file := if p.status = DeltaStatus.added then none else some p.old_path
      changes := p.hunks.flatMap fun h => h.map toChange }

/-! ## diffanalyze2.py: the attribution loop of generate_repository_changes -/

/-- One element of the `functions` list of diffanalyze2.py line 147:
name, start line, optional end line. -/
structure FnEntry where
  name : String
  start : Int
  end_ : Option Int
  deriving DecidableEq

/-- The selection of diffanalyze2.py lines 147-148: keep the ctags records
of kind `function` and project name, start line and optional end line. -/
def select_functions (entries : List CtagsEntry) : List FnEntry :=
  (entries.filter fun e => e.kind = some "function").map fun e =>
    ⟨e.name, e.line, e.end_⟩

/-- The three containment checks of diffanalyze2.py lines 164-174, OR-ed
as the successive `match = True` assignments do. -/
def interval_match (fstart fend cs ce : Int) : Bool :=
  (decide (fstart ≤ cs) && decide (cs ≤ fend)) ||
  (decide (fstart ≤ ce) && decide (ce ≤ fend)) ||
  (decide (cs ≤ fstart) && decide (fstart ≤ ce))

/-- The per-change double loop of diffanalyze2.py lines 151-180 for one
change record: skip removals (`add == -1`), skip functions whose end is
falsy (Python `not f.end` is true for a missing end and for end `0`), and
record `(file, name, change_start, change_end)` with
`change_end = change_start + nr` for every function the interval test
matches.  The nested `commit_change` dict of the source groups these
tuples by file and then by name; being insertion-ordered, it is in
bijection with this flat append-ordered list. -/
def process_change (fname : String) (functions : List FnEntry) (change : Change) :
    List (String × String × Int × Int) :=
  if change.add = -1 then []
  else
    functions.filterMap fun f =>
      match f.end_ with
      | none => none
      | some e =>
        if e = 0 then none
        else
          let cs := change.add
          let ce := cs + change.nr
          if interval_match f.start e cs ce then some (fname, f.name, cs, ce)
          else none

/-- `FileAnalyzer.analyse_file` (diffanalyze2.py lines 27-59) restricted to
its error policy: the ctags stderr `err` and parsed records are the
collaborator inputs; a non-empty stderr raises `RuntimeError(err)`
(lines 48-49), modelled as `Except.error`. -/
structure ExtractorRun where
  err : String
  entries : List CtagsEntry

/-- `FileAnalyzer.analyse_file`, error policy. -/
def analyse_file (r : ExtractorRun) : Except String (List CtagsEntry) :=
  if r.err ≠ "" then Except.error r.err else Except.ok r.entries

/-- The per-parent body of `generate_repository_changes` (diffanalyze2.py
lines 129-181) over the patch summaries of one diff: summaries without a
`new_file` (deleted files) are skipped; otherwise the file's ctags records
are obtained (a raised extractor error propagates, there is no handler in
the source), filtered to functions, and every change is matched by
`process_change`.  Blob retrieval plus ctags is the collaborator
`analyse`. -/
def generate_commit_changes (analyse : String → Except String (List CtagsEntry)) :
    List PatchSummary → Except String (List (String × String × Int × Int))
  | [] => Except.ok []
  | s :: rest =>
    match s.new_file with
    | none => generate_commit_changes analyse rest
    | some fname =>
      match analyse fname with
      | Except.error e => Except.error e
      | Except.ok raw =>
        match generate_commit_changes analyse rest with
        | Except.error e => Except.error e
        | Except.ok acc =>
          Except.ok ((s.changes.flatMap
            (process_change fname (select_functions raw))) ++ acc)

/-! ## Definitions modelled from the spec, for comparison with the code -/

/-- Modelled from the spec (section 4.4 step 2): the per-line containment
test — some changed line lies inside the function range. -/
def spec_line_test (fstart fend : Int) (lines : List Int) : Bool :=
  lines.any fun n => decide (fstart ≤ n) && decide (n ≤ fend)

/-- Modelled from the spec (section 4.4 step 4): the whole-hunk interval
overlap test over the hunk span, whose third disjunct is the function
range lying entirely inside the change span. -/
def spec_interval_test (fstart fend cs ce : Int) : Bool :=
  (decide (fstart ≤ cs) && decide (cs ≤ fend)) ||
  (decide (fstart ≤ ce) && decide (ce ≤ fend)) ||
  (decide (cs ≤ fstart) && decide (fend ≤ ce))

/-- Modelled from the spec (section 4.4 step 4): the union of the per-line
containment test and the whole-hunk interval overlap test. -/
def spec_union_test (fstart fend cs ce : Int) (lines : List Int) : Bool :=
  spec_line_test fstart fend lines || spec_interval_test fstart fend cs ce

/-! ## Helper lemmas about the association-list operations -/

theorem assocLookup_append_singleton {β : Type} (m : List (String × β)) (k k2 : String) (v : β) :
    assocLookup (m ++ [(k, v)]) k2 =
      match assocLookup m k2 with
      | some w => some w
      | none => if k = k2 then some v else none := by
  induction m with
  | nil => rfl
  | cons hd tl ih =>
    obtain ⟨k3, w⟩ := hd
    by_cases h : k3 = k2
    · simp [assocLookup, h]
    · simpa [assocLookup, h] using ih

theorem assocLookup_insertRecord_ne (m : LinesMap) (k k2 : String) (a r : List Int)
    (h : k ≠ k2) : assocLookup (insertRecord m k a r) k2 = assocLookup m k2 := by
  unfold insertRecord
  rw [assocLookup_append_singleton]
  cases assocLookup m k2 <;> simp [h]

theorem assocLookup_insertRecord_isSome (m : LinesMap) (k k2 : String) (a r : List Int)
    (h : (assocLookup m k2).isSome) :
    (assocLookup (insertRecord m k a r) k2).isSome := by
  unfold insertRecord
  rw [assocLookup_append_singleton]
  cases hm : assocLookup m k2
  · rw [hm] at h; simp at h
  · simp

theorem assocLookup_extendRecord_isSome (m : LinesMap) (k k2 : String) (a r : List Int)
    (h : (assocLookup m k2).isSome) :
    (assocLookup (extendRecord m k a r) k2).isSome := by
  induction m with
  | nil => simpa [extendRecord] using h
  | cons hd tl ih =>
    obtain ⟨k3, cl⟩ := hd
    by_cases h3 : k3 = k
    · subst h3
      by_cases h2 : k3 = k2
      · subst h2
        simp [extendRecord, assocLookup]
      · simp [assocLookup, h2] at h
        simpa [extendRecord, assocLookup, h2] using h
    · by_cases h2 : k3 = k2
      · subst h2
        simp [extendRecord, assocLookup, h3]
      · simp [assocLookup, h2] at h
        simp [extendRecord, assocLookup, h3, h2]
        exact ih h

theorem mem_setInsert_self (s : List String) (x : String) : x ∈ setInsert s x := by
  unfold setInsert
  by_cases h : x ∈ s <;> simp [h]

theorem mem_setInsert_mono (s : List String) (x y : String) (h : y ∈ s) :
    y ∈ setInsert s x := by
  unfold setInsert
  by_cases hx : x ∈ s <;> simp [hx, h]

theorem mem_otherAdd_self (oc : List (String × List String)) (e c : String) :
    c ∈ (assocLookup (otherAdd oc e c) e).getD [] := by
  induction oc with
  | nil => simp [otherAdd, assocLookup]
  | cons hd tl ih =>
    obtain ⟨e2, s⟩ := hd
    by_cases h : e2 = e
    · simp [otherAdd, assocLookup, h, mem_setInsert_self]
    · simpa [otherAdd, assocLookup, h] using ih

theorem mem_otherAdd_mono (oc : List (String × List String)) (e c e2 c2 : String)
    (h : c2 ∈ (assocLookup oc e2).getD []) :
    c2 ∈ (assocLookup (otherAdd oc e c) e2).getD [] := by
  induction oc with
  | nil => simp [assocLookup] at h
  | cons hd tl ih =>
    obtain ⟨e3, s⟩ := hd
    by_cases h3 : e3 = e
    · subst h3
      by_cases h2 : e3 = e2
      · subst h2
        simp [assocLookup] at h
        simp [otherAdd, assocLookup]
        exact mem_setInsert_mono _ _ _ h
      · simp [assocLookup, h2] at h
        simpa [otherAdd, assocLookup, h2] using h
    · by_cases h2 : e3 = e2
      · subst h2
        simp [assocLookup] at h
        simp [otherAdd, assocLookup, h3, h]
      · simp [assocLookup, h2] at h
        simp [otherAdd, assocLookup, h3, h2]
        exact ih h

theorem mem_fnMapInsert_self (m : FnMap) (k : String) (v : FnAttributes) :
    v ∈ (assocLookup (fnMapInsert m k v) k).getD [] := by
  induction m with
  | nil => simp [fnMapInsert, assocLookup]
  | cons hd tl ih =>
    obtain ⟨k2, vs⟩ := hd
    by_cases h : k2 = k
    · simp [fnMapInsert, assocLookup, h]
    · simpa [fnMapInsert, assocLookup, h] using ih

theorem mem_fnMapInsert_mono (m : FnMap) (k k2 : String) (v w : FnAttributes)
    (h : w ∈ (assocLookup m k2).getD []) :
    w ∈ (assocLookup (fnMapInsert m k v) k2).getD [] := by
  induction m with
  | nil => simp [assocLookup] at h
  | cons hd tl ih =>
    obtain ⟨k3, vs⟩ := hd
    by_cases h3 : k3 = k
    · subst h3
      by_cases hk : k3 = k2
      · subst hk
        simp [assocLookup] at h
        simp [fnMapInsert, assocLookup, h]
      · simp [assocLookup, hk] at h
        simpa [fnMapInsert, assocLookup, hk] using h
    · by_cases hk : k3 = k2
      · subst hk
        simp [assocLookup] at h
        simp [fnMapInsert, assocLookup, h3, h]
      · simp [assocLookup, hk] at h
        simp [fnMapInsert, assocLookup, h3, hk]
        exact ih h

/-! ## Helper lemmas about match_lines_to_fn -/

theorem mem_lines_in_ranges (attrs : List FnAttributes) (lines : List Int) (n : Int) :
    n ∈ lines_in_ranges attrs lines ↔
      n ∈ lines ∧ ∃ a ∈ attrs, a.start_line ≤ n ∧ n ≤ a.end_line := by
  simp only [lines_in_ranges, List.mem_flatMap, List.mem_filter, Bool.and_eq_true,
    decide_eq_true_eq]
  constructor
  · rintro ⟨a, ha, hn, h1, h2⟩
    exact ⟨hn, a, ha, h1, h2⟩
  · rintro ⟨hn, a, ha, h1, h2⟩
    exact ⟨a, ha, hn, h1, h2⟩

theorem process_fn_name_snd_true (cur prev : FnMap) (nl ol : List Int)
    (m : LinesMap) (n : String) :
    (process_fn_name cur prev nl ol (m, true) n).2 = true := by
  unfold process_fn_name
  cases h : assocLookup m n
  · simp only [h]
    split
    · rfl
    · rfl
  · simp only [h]

theorem foldl_process_snd_true (cur prev : FnMap) (nl ol : List Int)
    (names : List String) :
    ∀ m : LinesMap,
      (names.foldl (process_fn_name cur prev nl ol) (m, true)).2 = true := by
  induction names with
  | nil => intro m; rfl
  | cons hd tl ih =>
    intro m
    rw [List.foldl_cons]
    have h := process_fn_name_snd_true cur prev nl ol m hd
    rcases hst : process_fn_name cur prev nl ol (m, true) hd with ⟨m2, b⟩
    rw [hst] at h
    simp only at h
    subst h
    exact ih m2

theorem process_fn_name_lookup_isSome (cur prev : FnMap) (nl ol : List Int)
    (st : LinesMap × Bool) (n k : String)
    (h : (assocLookup st.1 k).isSome) :
    (assocLookup (process_fn_name cur prev nl ol st n).1 k).isSome := by
  unfold process_fn_name
  cases hn : assocLookup st.1 n
  · simp only [hn]
    split
    · exact h
    · exact assocLookup_insertRecord_isSome _ _ _ _ _ h
  · simp only [hn]
    exact assocLookup_extendRecord_isSome _ _ _ _ _ h

theorem process_fn_name_hit (cur prev : FnMap) (nl ol : List Int)
    (st : LinesMap × Bool) (n : String) (h : (assocLookup st.1 n).isSome) :
    ∃ m2, process_fn_name cur prev nl ol st n = (m2, true) := by
  unfold process_fn_name
  cases hn : assocLookup st.1 n
  · rw [hn] at h; simp at h
  · simp only [hn]
    exact ⟨_, rfl⟩

theorem foldl_process_mem_snd_true (cur prev : FnMap) (nl ol : List Int)
    (names : List String) :
    ∀ (m : LinesMap) (s : Bool) (k : String), k ∈ names →
      (assocLookup m k).isSome →
      (names.foldl (process_fn_name cur prev nl ol) (m, s)).2 = true := by
  induction names with
  | nil => intro m s k hk _; simp at hk
  | cons hd tl ih =>
    intro m s k hk hm
    rw [List.foldl_cons]
    rcases List.mem_cons.mp hk with rfl | htl
    · rcases process_fn_name_hit cur prev nl ol (m, s) k hm with ⟨m2, hstep⟩
      rw [hstep]
      exact foldl_process_snd_true cur prev nl ol tl m2
    · have hpres := process_fn_name_lookup_isSome cur prev nl ol (m, s) hd k hm
      rcases hstep : process_fn_name cur prev nl ol (m, s) hd with ⟨m2, b⟩
      rw [hstep] at hpres
      exact ih m2 b k htl hpres

theorem process_fn_name_fresh (cur prev : FnMap) (nl ol : List Int)
    (st : LinesMap × Bool) (n : String) (h : assocLookup st.1 n = none) :
    process_fn_name cur prev nl ol st n =
      if (lines_in_ranges ((assocLookup cur n).getD []) nl).isEmpty &&
         (lines_in_ranges ((assocLookup prev n).getD []) ol).isEmpty
      then st
      else (insertRecord st.1 n (lines_in_ranges ((assocLookup cur n).getD []) nl)
              (lines_in_ranges ((assocLookup prev n).getD []) ol), true) := by
  unfold process_fn_name
  simp only [h]

theorem foldl_process_fresh (cur prev : FnMap) (nl ol : List Int)
    (names : List String) :
    ∀ (m : LinesMap) (s : Bool),
      (∀ n ∈ names, assocLookup m n = none) →
      (names.foldl (process_fn_name cur prev nl ol) (m, s)).2 =
        (s || names.any fun n =>
          !(lines_in_ranges ((assocLookup cur n).getD []) nl).isEmpty ||
          !(lines_in_ranges ((assocLookup prev n).getD []) ol).isEmpty) := by
  induction names with
  | nil => intro m s _; simp
  | cons hd tl ih =>
    intro m s hnone
    rw [List.foldl_cons, List.any_cons,
      process_fn_name_fresh cur prev nl ol (m, s) hd
        (hnone hd (List.mem_cons_self hd tl))]
    by_cases hc : ((lines_in_ranges ((assocLookup cur hd).getD []) nl).isEmpty &&
        (lines_in_ranges ((assocLookup prev hd).getD []) ol).isEmpty) = true
    · rw [if_pos hc]
      rw [ih m s (fun n hn => hnone n (List.mem_cons_of_mem hd hn))]
      simp only [Bool.and_eq_true] at hc
      obtain ⟨h1, h2⟩ := hc
      rw [h1, h2]
      simp
    · rw [if_neg hc]
      rw [foldl_process_snd_true cur prev nl ol tl _]
      cases h1 : (lines_in_ranges ((assocLookup cur hd).getD []) nl).isEmpty <;>
        cases h2 : (lines_in_ranges ((assocLookup prev hd).getD []) ol).isEmpty <;>
        simp_all

theorem match_success_iff (cur prev : FnMap) (nl ol : List Int) :
    (match_lines_to_fn cur prev [] nl ol).2 = true ↔
      ∃ n ∈ union_fn_names cur prev,
        lines_in_ranges ((assocLookup cur n).getD []) nl ≠ [] ∨
        lines_in_ranges ((assocLookup prev n).getD []) ol ≠ [] := by
  unfold match_lines_to_fn
  rw [foldl_process_fresh cur prev nl ol (union_fn_names cur prev) [] false
      (fun n _ => rfl)]
  simp [List.any_eq_true]

/-! ## Helper lemmas about the diffanalyze2.py attribution loop -/

theorem mem_process_change (fname : String) (fns : List FnEntry) (ch : Change)
    (t : String × String × Int × Int) :
    t ∈ process_change fname fns ch ↔
      ¬ch.add = -1 ∧ ∃ f ∈ fns, ∃ e, f.end_ = some e ∧ ¬e = 0 ∧
        interval_match f.start e ch.add (ch.add + ch.nr) = true ∧
        t = (fname, f.name, ch.add, ch.add + ch.nr) := by
  unfold process_change
  by_cases h : ch.add = -1
  · simp [h]
  · rw [if_neg h]
    simp only [List.mem_filterMap]
    constructor
    · rintro ⟨f, hf, hsome⟩
      refine ⟨h, f, hf, ?_⟩
      cases he : f.end_ with
      | none => rw [he] at hsome; simp at hsome
      | some e =>
        rw [he] at hsome
        dsimp only at hsome
        by_cases hz : e = 0
        · rw [if_pos hz] at hsome; simp at hsome
        · rw [if_neg hz] at hsome
          by_cases hm : interval_match f.start e ch.add (ch.add + ch.nr) = true
          · rw [if_pos hm] at hsome
            exact ⟨e, rfl, hz, hm, (Option.some_inj.mp hsome).symm⟩
          · rw [if_neg hm] at hsome; simp at hsome
    · rintro ⟨-, f, hf, e, he, hz, hm, rfl⟩
      refine ⟨f, hf, ?_⟩
      rw [he]
      dsimp only
      simp only [if_neg hz, if_pos hm]

theorem generate_commit_changes_error
    (analyse : String → Except String (List CtagsEntry)) (ss : List PatchSummary)
    (s : PatchSummary) (fname e : String)
    (hs : s ∈ ss) (hnf : s.new_file = some fname)
    (ha : analyse fname = Except.error e) :
    ∃ e2, generate_commit_changes analyse ss = Except.error e2 := by
  induction ss with
  | nil => simp at hs
  | cons hd tl ih =>
    rcases List.mem_cons.mp hs with rfl | htl
    · exact ⟨e, by simp only [generate_commit_changes, hnf, ha]⟩
    · cases hhd : hd.new_file with
      | none =>
        rcases ih htl with ⟨e2, he2⟩
        exact ⟨e2, by simp only [generate_commit_changes, hhd, he2]⟩
      | some g =>
        cases hag : analyse g with
        | error e2 => exact ⟨e2, by simp only [generate_commit_changes, hhd, hag]⟩
        | ok raw =>
          rcases ih htl with ⟨e2, he2⟩
          exact ⟨e2, by simp only [generate_commit_changes, hhd, hag, he2]⟩

theorem generate_commit_changes_skip
    (analyse : String → Except String (List CtagsEntry))
    (pre post : List PatchSummary) (s : PatchSummary)
    (h : s.new_file = none) :
    generate_commit_changes analyse (pre ++ s :: post) =
      generate_commit_changes analyse (pre ++ post) := by
  induction pre with
  | nil =>
    simp only [List.nil_append, generate_commit_changes, h]
  | cons hd tl ih =>
    cases hhd : hd.new_file with
    | none =>
      simp only [List.cons_append, generate_commit_changes, hhd]
      exact ih
    | some g =>
      cases hag : analyse g with
      | error e2 =>
        simp only [List.cons_append, generate_commit_changes, hhd, hag]
      | ok raw =>
        simp only [List.cons_append, generate_commit_changes, hhd, hag,
          List.append_eq, ih]

/-! ## Helper lemmas about compute_diffs -/

theorem collect_hunk_lines_go (lines : List DiffLine) :
    ∀ acc : List Int × List Int,
      lines.foldl collect_line_step acc =
        (acc.1 ++ ((lines.filter fun l =>
            !isBlank l.content && decide (l.new_lineno > -1)).map
              fun l => l.new_lineno),
         acc.2 ++ ((lines.filter fun l =>
            !isBlank l.content && !decide (l.new_lineno > -1)).map
              fun l => l.old_lineno)) := by
  induction lines with
  | nil => intro acc; simp
  | cons hd tl ih =>
    intro acc
    rw [List.foldl_cons]
    cases hb : isBlank hd.content
    · cases hn : decide (hd.new_lineno > -1)
      · rw [show collect_line_step acc hd = (acc.1, acc.2 ++ [hd.old_lineno]) by
          unfold collect_line_step
          rw [hb]
          simp only [Bool.false_eq_true, if_false]
          rw [if_neg (of_decide_eq_false hn)]]
        rw [ih]
        simp [List.filter_cons, hb, hn]
      · rw [show collect_line_step acc hd = (acc.1 ++ [hd.new_lineno], acc.2) by
          unfold collect_line_step
          rw [hb]
          simp only [Bool.false_eq_true, if_false]
          rw [if_pos (of_decide_eq_true hn)]]
        rw [ih]
        simp [List.filter_cons, hb, hn]
    · rw [show collect_line_step acc hd = acc by
        unfold collect_line_step
        rw [hb]
        simp]
      rw [ih]
      simp [List.filter_cons, hb]

theorem collect_hunk_lines_spec (lines : List DiffLine) :
    collect_hunk_lines lines =
      (((lines.filter fun l =>
          !isBlank l.content && decide (l.new_lineno > -1)).map
            fun l => l.new_lineno),
       ((lines.filter fun l =>
          !isBlank l.content && !decide (l.new_lineno > -1)).map
            fun l => l.old_lineno)) := by
  unfold collect_hunk_lines
  rw [collect_hunk_lines_go]
  simp

/-! ## Helper lemmas about get_fn_names -/

theorem foldl_fn_names_step_mono (entries : List CtagsEntry) :
    ∀ (m : FnMap) (k : String) (w : FnAttributes),
      w ∈ (assocLookup m k).getD [] →
      w ∈ (assocLookup (entries.foldl fn_names_step m) k).getD [] := by
  induction entries with
  | nil => intro m k w h; exact h
  | cons hd tl ih =>
    intro m k w h
    rw [List.foldl_cons]
    refine ih _ k w ?_
    unfold fn_names_step
    split
    · exact mem_fnMapInsert_mono _ _ _ _ _ h
    · exact h

theorem foldl_fn_names_step_mem (entries : List CtagsEntry) :
    ∀ (m : FnMap) (e : CtagsEntry), e ∈ entries → e.kind = some "function" →
      FnAttributes.mk e.name e.line (e.end_.getD e.line) ∈
        (assocLookup (entries.foldl fn_names_step m) e.name).getD [] := by
  induction entries with
  | nil => intro m e he; simp at he
  | cons hd tl ih =>
    intro m e he hk
    rw [List.foldl_cons]
    rcases List.mem_cons.mp he with rfl | htl
    · refine foldl_fn_names_step_mono tl _ e.name _ ?_
      unfold fn_names_step
      rw [if_pos hk]
      exact mem_fnMapInsert_self _ _ _
    · exact ih _ e htl hk

theorem get_fn_names_mem (entries : List CtagsEntry) (e : CtagsEntry)
    (he : e ∈ entries) (hk : e.kind = some "function") :
    FnAttributes.mk e.name e.line (e.end_.getD e.line) ∈
      (assocLookup (get_fn_names "" entries) e.name).getD [] := by
  unfold get_fn_names get_fn_names_fold
  rw [if_neg (by simp)]
  exact foldl_fn_names_step_mem entries [] e he hk

/-! ## Helper lemmas about other_changed bookkeeping -/

theorem process_patch_oc_mono (fnMaps : String → FnMap × FnMap)
    (cm : String) (fl : Option (String → Bool)) (st : CDState) (p : Patch)
    (e c : String) (h : c ∈ (assocLookup st.other_changed e).getD []) :
    c ∈ (assocLookup (process_patch fnMaps cm fl st p).other_changed e).getD [] := by
  unfold process_patch
  split
  · exact h
  · dsimp only
    split
    · exact mem_otherAdd_mono _ _ _ _ _ h
    · exact h

theorem foldl_process_patch_oc_mono (fnMaps : String → FnMap × FnMap)
    (cm : String) (fl : Option (String → Bool)) (patches : List Patch) :
    ∀ (st : CDState) (e c : String),
      c ∈ (assocLookup st.other_changed e).getD [] →
      c ∈ (assocLookup
            ((patches.foldl (process_patch fnMaps cm fl) st).other_changed) e).getD [] := by
  induction patches with
  | nil => intro st e c h; exact h
  | cons hd tl ih =>
    intro st e c h
    rw [List.foldl_cons]
    exact ih _ e c (process_patch_oc_mono fnMaps cm fl st hd e c h)

theorem foldl_process_patch_adds (fnMaps : String → FnMap × FnMap)
    (cm : String) (fl : Option (String → Bool)) (patches : List Patch) :
    ∀ (st : CDState) (p : Patch), p ∈ patches →
      passes_filter fl p.filename = true →
      get_extension p.filename ∉ allowed_extensions →
      cm ∈ (assocLookup
            ((patches.foldl (process_patch fnMaps cm fl) st).other_changed)
            (get_extension p.filename)).getD [] := by
  induction patches with
  | nil => intro st p hp; simp at hp
  | cons hd tl ih =>
    intro st p hp hpass hext
    rw [List.foldl_cons]
    rcases List.mem_cons.mp hp with rfl | htl
    · refine foldl_process_patch_oc_mono fnMaps cm fl tl _ _ _ ?_
      unfold process_patch
      rw [hpass]
      simp only [Bool.not_true, Bool.false_eq_true, if_false]
      rw [if_pos hext]
      exact mem_otherAdd_self _ _ _
    · exact ih _ p htl hpass hext

/-! ## Claim C1 -/

/-- Claim C1 counterexample.  The claim states that every entry point
computes both the per-line containment test and the whole-hunk interval
overlap test and unions them.  At the function `foo` spanning lines 5-10
present only post-image, with changed new lines 3 and 12, the spec union
test attributes `foo` (its range lies inside the change span 3-12), but
diffanalyze.py's `match_lines_to_fn` attributes nothing and returns
failure: the per-line test alone is computed there. -/
theorem C1_counterexample :
    spec_union_test 5 10 3 12 [3, 12] = true ∧
    match_lines_to_fn [("foo", [⟨"foo", 5, 10⟩])] [] [] [3, 12] [] = ([], false) := by
  decide

/-- Claim C1 amended: the two entry points each compute exactly one of the
two tests and never union them.  Starting from an empty record map,
diffanalyze.py's `match_lines_to_fn` succeeds exactly when some function
name has a changed line inside a variant's range (per-line containment
only), and a tuple is recorded by diffanalyze2.py's attribution loop
exactly when the interval test matches (whole-hunk interval test only). -/
theorem C1_theorem :
    (∀ (cur prev : FnMap) (nl ol : List Int),
      ((match_lines_to_fn cur prev [] nl ol).2 = true ↔
        ∃ n ∈ union_fn_names cur prev,
          lines_in_ranges ((assocLookup cur n).getD []) nl ≠ [] ∨
          lines_in_ranges ((assocLookup prev n).getD []) ol ≠ [])) ∧
    (∀ (fname : String) (fns : List FnEntry) (ch : Change)
       (t : String × String × Int × Int),
      t ∈ process_change fname fns ch ↔
        ¬ch.add = -1 ∧ ∃ f ∈ fns, ∃ e, f.end_ = some e ∧ ¬e = 0 ∧
          interval_match f.start e ch.add (ch.add + ch.nr) = true ∧
          t = (fname, f.name, ch.add, ch.add + ch.nr)) :=
  ⟨match_success_iff, mem_process_change⟩

/-! ## Claim C2 -/

/-- Claim C2 counterexample.  The claim states that a symbol with unknown
end line keeps a range extending to the end of the file.  For a ctags
record of `foo` starting at line 5 with no end field, in a 10-line file:
diffanalyze.py substitutes the start line (range 5-5, not 5-10), so
changed line 7 — inside the claimed file-length range, as the final
conjunct records — is not attributed; and diffanalyze2.py's loop drops
the symbol entirely, attributing nothing. -/
theorem C2_counterexample :
    get_fn_names "" [⟨"foo", 5, none, some "function"⟩] = [("foo", [⟨"foo", 5, 5⟩])] ∧
    match_lines_to_fn (get_fn_names "" [⟨"foo", 5, none, some "function"⟩]) [] [] [7] []
      = ([], false) ∧
    process_change "a.c" [⟨"foo", 5, none⟩] ⟨7, -1, 1, 'x'⟩ = [] ∧
    ((5 : Int) ≤ 7 ∧ (7 : Int) ≤ 10) := by
  decide

/-- Claim C2 amended: in diffanalyze.py a function-kind symbol is never
dropped and a missing end line is substituted with the start line (not the
file length, and nothing is recorded for diagnostics); in diffanalyze2.py
a function whose end is missing is skipped during attribution (a warning
is logged) and contributes no tuple. -/
theorem C2_theorem :
    (∀ (entries : List CtagsEntry) (e : CtagsEntry),
      e ∈ entries → e.kind = some "function" →
      FnAttributes.mk e.name e.line (e.end_.getD e.line) ∈
        (assocLookup (get_fn_names "" entries) e.name).getD []) ∧
    (∀ (fname : String) (f : FnEntry) (ch : Change),
      f.end_ = none → process_change fname [f] ch = []) := by
  constructor
  · intro entries e he hk
    exact get_fn_names_mem entries e he hk
  · intro fname f ch hend
    unfold process_change
    split
    · rfl
    · simp [List.filterMap_cons, hend]

/-- Claim C2 witness: the amended statement applied to a one-entry symbol
table and to a function with no end line. -/
theorem C2_witness :
    (FnAttributes.mk "foo" 5 9 ∈
      (assocLookup (get_fn_names "" [⟨"foo", 5, some 9, some "function"⟩]) "foo").getD []) ∧
    process_change "a.c" [⟨"bar", 3, none⟩] ⟨4, -1, 1, 'x'⟩ = [] :=
  ⟨C2_theorem.1 [⟨"foo", 5, some 9, some "function"⟩]
      ⟨"foo", 5, some 9, some "function"⟩ (by decide) (by decide),
   C2_theorem.2 "a.c" ⟨"bar", 3, none⟩ ⟨4, -1, 1, 'x'⟩ rfl⟩

/-! ## Claim C3 -/

/-- Claim C3 counterexample.  The claim states that a commit changing both
an eligible file with an attributed function and an ineligible-extension
file is NOT registered under the ineligible extension.  For commit `c1`
changing `README.md` and `main.c` (whose function `foo` at lines 5-10 is
attributed via new line 7), `compute_diffs` nevertheless registers `c1`
under `.md`, while one function was attributed. -/
theorem C3_counterexample :
    (compute_diffs
        (fun s => if s = "main.c" then ([("foo", [⟨"foo", 5, 10⟩])], []) else ([], []))
        "c1" none
        [⟨"README.md", []⟩, ⟨"main.c", [[⟨"x", 7, -1, 1, 'x'⟩]]⟩]).other_changed
      = [(".md", ["c1"])] ∧
    updated_fn_count (compute_diffs
        (fun s => if s = "main.c" then ([("foo", [⟨"foo", 5, 10⟩])], []) else ([], []))
        "c1" none
        [⟨"README.md", []⟩, ⟨"main.c", [[⟨"x", 7, -1, 1, 'x'⟩]]⟩]) = 1 := by
  decide

/-- Claim C3 amended: the commit id is added under an ineligible extension
unconditionally, for every changed file of that extension passing the path
filter, regardless of function attribution elsewhere; only the `.c` bucket
is restricted to commits whose eligible files produced no updated
function. -/
theorem C3_theorem :
    (∀ (fnMaps : String → FnMap × FnMap) (cm : String)
       (fl : Option (String → Bool)) (patches : List Patch) (p : Patch),
      p ∈ patches → passes_filter fl p.filename = true →
      get_extension p.filename ∉ allowed_extensions →
      cm ∈ (assocLookup ((compute_diffs fnMaps cm fl patches).other_changed)
              (get_extension p.filename)).getD []) ∧
    (∀ (fnMaps : String → FnMap × FnMap) (cm : String)
       (fl : Option (String → Bool)) (patches : List Patch),
      (compute_diffs_loop fnMaps cm fl patches).has_c_files = true →
      (compute_diffs_loop fnMaps cm fl patches).has_updated_fn = false →
      cm ∈ (assocLookup ((compute_diffs fnMaps cm fl patches).other_changed)
              ".c").getD []) := by
  constructor
  · intro fnMaps cm fl patches p hp hpass hext
    have h := foldl_process_patch_adds fnMaps cm fl patches
      ⟨[], [], false, false⟩ p hp hpass hext
    simp only [compute_diffs, compute_diffs_loop]
    split
    · exact mem_otherAdd_mono _ _ _ _ _ h
    · exact h
  · intro fnMaps cm fl patches h1 h2
    have hc : ((compute_diffs_loop fnMaps cm fl patches).has_c_files &&
        !(compute_diffs_loop fnMaps cm fl patches).has_updated_fn) = true := by
      rw [h1, h2]; rfl
    simp only [compute_diffs]
    rw [if_pos hc]
    exact mem_otherAdd_self _ _ _

/-- Claim C3 witness: the amended statement applied to a commit touching a
single `.txt` file. -/
theorem C3_witness :
    "c9" ∈ (assocLookup ((compute_diffs (fun _ => ([], [])) "c9" none
        [⟨"notes.txt", []⟩]).other_changed) (get_extension "notes.txt")).getD [] :=
  C3_theorem.1 (fun _ => ([], [])) "c9" none [⟨"notes.txt", []⟩] ⟨"notes.txt", []⟩
    (List.mem_cons_self _ _) rfl (by decide)

/-! ## Claim C4 -/

/-- Claim C4 counterexample.  The claim states that a DELETED file's OLD
side lines are attributed and recorded as removed lines.  In
diffanalyze2.py a DELETED patch gets no `new_file` entry and is skipped
entirely: for `bar.c` deleted with OLD lines 5 and 6 and a symbol table
containing `bar` 5-20, the attribution result is empty — no removed lines
are recorded. -/
theorem C4_counterexample :
    (gather_diff_information [⟨DeltaStatus.deleted, "bar.c", "bar.c",
        [[⟨"a", -1, 5, 1, 'd'⟩, ⟨"b", -1, 6, 1, 'd'⟩]]⟩]).map (fun s => s.new_file)
      = [none] ∧
    generate_commit_changes
      (fun _ => Except.ok [⟨"bar", 5, some 20, some "function"⟩])
      (gather_diff_information [⟨DeltaStatus.deleted, "bar.c", "bar.c",
        [[⟨"a", -1, 5, 1, 'd'⟩, ⟨"b", -1, 6, 1, 'd'⟩]]⟩])
      = Except.ok [] :=
  ⟨rfl, rfl⟩

/-- Claim C4 amended: diffanalyze2.py skips a summary without a `new_file`
(the DELETED case) entirely, contributing nothing to the result; in
diffanalyze.py the OLD-side lines of the scenario — `bar` spanning 5-20
deleted in full — are attributed per-line against the pre-image table,
giving removed lines 5 to 20 and no added lines. -/
theorem C4_theorem :
    (∀ (analyse : String → Except String (List CtagsEntry))
       (pre post : List PatchSummary) (s : PatchSummary),
      s.new_file = none →
      generate_commit_changes analyse (pre ++ s :: post) =
        generate_commit_changes analyse (pre ++ post)) ∧
    match_lines_to_fn [] [("bar", [⟨"bar", 5, 20⟩])] [] []
        [5, 6, 7, 8, 9, 10, 11, 12, 13, 14, 15, 16, 17, 18, 19, 20]
      = ([("bar", ⟨[], [5, 6, 7, 8, 9, 10, 11, 12, 13, 14, 15, 16, 17, 18, 19, 20]⟩)],
         true) :=
  ⟨generate_commit_changes_skip, by decide⟩

/-- Claim C4 witness: the skip of a new-file-less summary at a concrete
input. -/
theorem C4_witness :
    generate_commit_changes (fun _ => Except.ok []) [⟨none, some "old.c", []⟩] =
      generate_commit_changes (fun _ => Except.ok []) [] :=
  C4_theorem.1 (fun _ => Except.ok []) [] [] ⟨none, some "old.c", []⟩ rfl

/-! ## Claim C5 -/

/-- Claim C5 counterexample.  The claim states that whitespace-only
changed lines are excluded before attribution in every hunk.
diffanalyze2.py performs no such filtering: a changed line of content
three spaces at new line 7 survives `gather_diff_information` and is
attributed to `foo` (range 5-10) by the interval test. -/
theorem C5_counterexample :
    isBlank "   " = true ∧
    (gather_diff_information [⟨DeltaStatus.modified, "a.c", "a.c",
        [[⟨"   ", 7, -1, 1, 'x'⟩]]⟩]).map (fun s => s.changes)
      = [[⟨7, -1, 1, 'x'⟩]] ∧
    process_change "a.c" [⟨"foo", 5, some 10⟩] ⟨7, -1, 1, 'x'⟩
      = [("a.c", "foo", 7, 8)] := by
  decide

/-- Claim C5 amended: diffanalyze.py excludes whitespace-only changed
lines before attribution — the collected new and old line lists are
exactly the non-blank lines of each side — while diffanalyze2.py turns
every hunk line, blank or not, into a change record that participates in
attribution. -/
theorem C5_theorem :
    (∀ lines : List DiffLine,
      collect_hunk_lines lines =
        (((lines.filter fun l => !isBlank l.content && decide (l.new_lineno > -1)).map
            fun l => l.new_lineno),
         ((lines.filter fun l => !isBlank l.content && !decide (l.new_lineno > -1)).map
            fun l => l.old_lineno))) ∧
    (∀ patches : List RawPatch,
      (gather_diff_information patches).map (fun s => s.changes) =
        patches.map (fun p => p.hunks.flatMap fun h => h.map toChange)) := by
  refine ⟨collect_hunk_lines_spec, ?_⟩
  intro patches
  simp [gather_diff_information]

/-! ## Claim C6 -/

/-- Claim C6: a side NEW changed line is attributed to a post-image symbol
variant exactly when it lies inside the variant's range, and the scenario
of `foo` spanning 10-10 pre-image and 10-12 post-image with new lines 11
and 12 yields the record with added lines 11 and 12 and no removed
lines. -/
theorem C6_theorem :
    (∀ (a : FnAttributes) (lines : List Int) (n : Int), n ∈ lines →
      (n ∈ lines_in_ranges [a] lines ↔ a.start_line ≤ n ∧ n ≤ a.end_line)) ∧
    (∀ (attrs : List FnAttributes) (lines : List Int) (n : Int),
      n ∈ lines_in_ranges attrs lines ↔
        n ∈ lines ∧ ∃ a ∈ attrs, a.start_line ≤ n ∧ n ≤ a.end_line) ∧
    match_lines_to_fn [("foo", [⟨"foo", 10, 12⟩])] [("foo", [⟨"foo", 10, 10⟩])] []
        [11, 12] []
      = ([("foo", ⟨[11, 12], []⟩)], true) := by
  refine ⟨?_, mem_lines_in_ranges, by decide⟩
  intro a lines n hn
  rw [mem_lines_in_ranges]
  simp [hn]

/-- Claim C6 witness: the containment criterion applied to line 11 against
the variant spanning 10-12. -/
theorem C6_witness :
    (11 : Int) ∈ lines_in_ranges [⟨"foo", 10, 12⟩] [11, 12] ↔
      (10 : Int) ≤ 11 ∧ (11 : Int) ≤ 12 :=
  C6_theorem.1 ⟨"foo", 10, 12⟩ [11, 12] 11 (by decide)

/-! ## Claim C7 -/

/-- Claim C7 counterexample.  The claim binds change_end to the last
affected line of the hunk.  For a one-line change at new line 5 (last
affected line 5), the code computes change_end = 5 + 1 = 6 and matches the
function `g` spanning 6-10, although the claimed test over the span 5-5
says there is no match. -/
theorem C7_counterexample :
    process_change "f.c" [⟨"g", 6, some 10⟩] ⟨5, -1, 1, 'x'⟩ = [("f.c", "g", 5, 6)] ∧
    spec_interval_test 6 10 5 5 = false := by
  decide

/-- Claim C7 amended: with change_start and change_end as diffanalyze2.py
computes them (change_end is the change's start plus its line count, one
past the last affected line, and the test runs per change record), the
code's interval test is equivalent to the claimed three-way disjunction
whenever the function range is well-formed. -/
theorem C7_theorem (fstart fend cs ce : Int) (h : fstart ≤ fend) :
    interval_match fstart fend cs ce = true ↔
      (fstart ≤ cs ∧ cs ≤ fend) ∨ (fstart ≤ ce ∧ ce ≤ fend) ∨
      (cs ≤ fstart ∧ fend ≤ ce) := by
  unfold interval_match
  simp only [Bool.or_eq_true, Bool.and_eq_true, decide_eq_true_eq]
  omega

/-- Claim C7 witness: the equivalence at the counterexample's numbers. -/
theorem C7_witness :
    interval_match 6 10 5 6 = true ↔
      ((6 : Int) ≤ 5 ∧ (5 : Int) ≤ 10) ∨ ((6 : Int) ≤ 6 ∧ (6 : Int) ≤ 10) ∨
      ((5 : Int) ≤ 6 ∧ (10 : Int) ≤ 6) :=
  C7_theorem 6 10 5 6 (by decide)

/-! ## Claim C8 -/

/-- Claim C8 counterexample.  The claim states the comparison parent is
the first parent.  For a merge commit with parents p1 and p2,
diffanalyze2.py's `get_parent_or_empty_commit` returns both parents and
the enclosing loop diffs against each of them, so a non-first parent (p2)
is also used as comparison parent. -/
theorem C8_counterexample :
    get_parent_or_empty_commit (Commit.mk "m" [Commit.mk "p1" [], Commit.mk "p2" []])
      = [Commit.mk "p1" [], Commit.mk "p2" []] ∧
    Commit.mk "p2" [] ∈
      get_parent_or_empty_commit (Commit.mk "m" [Commit.mk "p1" [], Commit.mk "p2" []]) ∧
    (Commit.mk "p2" []).id ≠ (Commit.mk "p1" []).id :=
  ⟨rfl, List.mem_cons_of_mem _ (List.mem_cons_self _ _), by decide⟩

/-- Claim C8 amended: diffanalyze2.py uses all parents as comparison
parents when any exist (the first parent among them, and exactly it for a
single-parent commit) and the empty-tree sentinel for a root commit, while
diffanalyze.py's histogram walk picks the first parent's hex or the empty
tree; moreover diffanalyze2.py skips every OLD-side change record, so no
removed lines appear in any commit's result — in particular a root
commit's. -/
theorem C8_theorem :
    (∀ (c : Commit) (p : Commit) (ps : List Commit), c.parents = p :: ps →
      get_parent_or_empty_commit c = c.parents ∧ v1_comparison_parent c = p.id) ∧
    (∀ c : Commit, c.parents = [] →
      get_parent_or_empty_commit c = [empty_tree_commit] ∧
      v1_comparison_parent c = GIT_EMPTY_TREE_ID) ∧
    (∀ (fname : String) (fns : List FnEntry) (ch : Change), ch.add = -1 →
      process_change fname fns ch = []) := by
  refine ⟨?_, ?_, ?_⟩
  · intro c p ps h
    cases c with
    | mk i parents =>
      simp only [Commit.parents] at h
      subst h
      exact ⟨rfl, rfl⟩
  · intro c h
    cases c with
    | mk i parents =>
      simp only [Commit.parents] at h
      subst h
      exact ⟨rfl, rfl⟩
  · intro fname fns ch h
    unfold process_change
    rw [if_pos h]

/-- Claim C8 witness: parent selection for a one-parent commit and a root
commit, and the OLD-side skip at a concrete removal record. -/
theorem C8_witness :
    (get_parent_or_empty_commit (Commit.mk "c" [Commit.mk "p" []])
        = (Commit.mk "c" [Commit.mk "p" []]).parents ∧
      v1_comparison_parent (Commit.mk "c" [Commit.mk "p" []]) = (Commit.mk "p" []).id) ∧
    (get_parent_or_empty_commit (Commit.mk "r" []) = [empty_tree_commit] ∧
      v1_comparison_parent (Commit.mk "r" []) = GIT_EMPTY_TREE_ID) ∧
    process_change "a.c" [⟨"f", 1, some 2⟩] ⟨-1, 4, 1, 'x'⟩ = [] :=
  ⟨C8_theorem.1 (Commit.mk "c" [Commit.mk "p" []]) (Commit.mk "p" []) [] rfl,
   C8_theorem.2.1 (Commit.mk "r" []) rfl,
   C8_theorem.2.2 "a.c" [⟨"f", 1, some 2⟩] ⟨-1, 4, 1, 'x'⟩ rfl⟩

/-! ## Claim C9 -/

/-- Claim C9 counterexample.  The claim states an extractor error is
non-fatal and only skips the file.  In diffanalyze2.py the error raised by
`analyse_file` propagates unhandled: with `bad.c` failing and `good.c`
still pending, the whole commit's processing ends in the error instead of
a result with `bad.c` skipped. -/
theorem C9_counterexample :
    generate_commit_changes
      (fun f => if f = "bad.c" then analyse_file ⟨"ctags: parse error", []⟩
                else analyse_file ⟨"", [⟨"foo", 1, some 3, some "function"⟩]⟩)
      [⟨some "bad.c", some "bad.c", []⟩,
       ⟨some "good.c", some "good.c", [⟨2, -1, 1, 'x'⟩]⟩]
      = Except.error "ctags: parse error" :=
  rfl

/-- Claim C9 amended: in diffanalyze.py an extractor error is non-fatal —
the file gets an empty symbol map and is thereby treated as having no
function data — while in diffanalyze2.py `analyse_file` turns a non-empty
extractor stderr into a raised error that propagates out of the commit
processing loop, aborting it. -/
theorem C9_theorem :
    (∀ (err : String) (entries : List CtagsEntry), err ≠ "" →
      get_fn_names err entries = []) ∧
    (∀ r : ExtractorRun, r.err ≠ "" → analyse_file r = Except.error r.err) ∧
    (∀ (analyse : String → Except String (List CtagsEntry))
       (ss : List PatchSummary) (s : PatchSummary) (fname e : String),
      s ∈ ss → s.new_file = some fname → analyse fname = Except.error e →
      ∃ e2, generate_commit_changes analyse ss = Except.error e2) := by
  refine ⟨?_, ?_, fun analyse ss s fname e hs hnf ha =>
    generate_commit_changes_error analyse ss s fname e hs hnf ha⟩
  · intro err entries h
    unfold get_fn_names
    rw [if_pos h]
  · intro r h
    unfold analyse_file
    rw [if_pos h]

/-- Claim C9 witness: both error policies and the propagation at concrete
inputs. -/
theorem C9_witness :
    get_fn_names "boom" [] = [] ∧
    analyse_file ⟨"boom", []⟩ = Except.error "boom" ∧
    ∃ e2, generate_commit_changes (fun _ => Except.error "boom")
      [⟨some "x.c", some "x.c", []⟩] = Except.error e2 :=
  ⟨C9_theorem.1 "boom" [] (by decide),
   C9_theorem.2.1 ⟨"boom", []⟩ (by decide),
   C9_theorem.2.2 (fun _ => Except.error "boom") [⟨some "x.c", some "x.c", []⟩]
     ⟨some "x.c", some "x.c", []⟩ "x.c" "boom" (List.mem_cons_self _ _) rfl rfl⟩

/-! ## Claim C10 -/

/-- Claim C10: on a `FileDifferences` state whose `fn_to_changed_lines` is
non-empty, `match_lines_to_fn` returns success whatever its arguments,
because reaching a name that already has a record sets the flag without
any newly attributed line.  The hypothesis that every recorded name occurs
in the union of the two symbol maps is the class invariant: the map is
only ever populated by `match_lines_to_fn` itself, which writes keys drawn
from that union, and the two maps are fixed at construction. -/
theorem C10_theorem (cur prev : FnMap) (existing : LinesMap)
    (new_lines old_lines : List Int)
    (hne : existing ≠ [])
    (hkeys : ∀ k ∈ existing.map Prod.fst, k ∈ union_fn_names cur prev) :
    (match_lines_to_fn cur prev existing new_lines old_lines).2 = true := by
  cases existing with
  | nil => exact absurd rfl hne
  | cons hd tl =>
    have hk : hd.1 ∈ union_fn_names cur prev :=
      hkeys hd.1 (List.mem_map_of_mem Prod.fst (List.mem_cons_self hd tl))
    have hsome : (assocLookup (hd :: tl) hd.1).isSome := by
      cases hd with
      | mk k v => simp [assocLookup]
    unfold match_lines_to_fn
    exact foldl_process_mem_snd_true cur prev new_lines old_lines
      (union_fn_names cur prev) (hd :: tl) false hd.1 hk hsome

/-- Claim C10 witness: with a record for `foo` already present and both
line lists empty, the call still returns success. -/
theorem C10_witness :
    (match_lines_to_fn [("foo", [⟨"foo", 5, 10⟩])] [] [("foo", ⟨[6], []⟩)] [] []).2
      = true :=
  C10_theorem [("foo", [⟨"foo", 5, 10⟩])] [] [("foo", ⟨[6], []⟩)] [] []
    (by decide) (by decide)

end Diffanalyze
